import Mathlib

/-!
Shallow embedding of the word-frequency pipeline of `src/HW1/1a/wc0_fixed.py`.

Text is modelled as `List Char`; a word (token) is a `List Char`.  Python
`dict` (insertion-ordered) is modelled as an association list
`List (Token × Nat)` grown by appending new keys at the end, exactly as
CPython's `dict` records insertion order.  Python's `sorted(..., reverse=True)`
is a stable sort; a stable descending-by-count sort has a unique output, and
it is modelled here by a stable insertion sort (`insertDesc`).
-/

namespace WC

abbrev Token := List Char

/-- The pipeline-relevant part of the `CONFIG` dict (the remaining fields
`bar_char`, `word_width`, `count_width` belong to the presentation functions,
which consume no pipeline logic).  `top_n` is an `Int` because Python slicing
accepts negative limits. -/
structure Config where
  stopwords : List Token
  punctuation : List Char
  top_n : Int
deriving Repr, DecidableEq

/-- The default `CONFIG` of the source file. -/
def CONFIG : Config :=
  { stopwords := ["the".data, "a".data, "an".data, "and".data, "or".data,
      "but".data, "in".data, "on".data, "at".data, "to".data, "for".data,
      "of".data, "is".data, "was".data, "are".data, "were".data, "be".data,
      "been".data, "with".data]
    punctuation := ".,!?;:\"()[]".data
    top_n := 10 }

/-- Scanner for Python `str.split()`: `cur` holds the characters of the word
being read, in reverse; a whitespace character ends the current word (if any),
so runs of whitespace produce no empty words. -/
def splitWsAux (cur : List Char) : List Char → List Token
  | [] => if cur.isEmpty then [] else [cur.reverse]
  | c :: rest =>
    if c.isWhitespace then
      if cur.isEmpty then splitWsAux [] rest
      else cur.reverse :: splitWsAux [] rest
    else splitWsAux (c :: cur) rest

/-- Python `str.split()` with no argument: split on runs of whitespace,
producing no empty words. -/
def splitWs (s : List Char) : List Token :=
  splitWsAux [] s

/-- `clean_word`: Python `word.strip(punctuation)` — remove the characters of
the punctuation set from both ends of the word, keeping interior ones. -/
def clean_word (word : Token) (punctuation : List Char) : Token :=
  ((word.dropWhile (fun c => decide (c ∈ punctuation))).reverse.dropWhile
    (fun c => decide (c ∈ punctuation))).reverse

/-- `normalize_text`: `text.lower().split()`. -/
def normalize_text (text : List Char) : List Token :=
  splitWs (text.map Char.toLower)

/-- `filter_stopwords`: `[word for word in words if word and word not in stopwords]`
(Python truthiness also drops the empty word). -/
def filter_stopwords (words : List Token) (stopwords : List Token) : List Token :=
  words.filter (fun word => decide (word ≠ [] ∧ word ∉ stopwords))

/-- One step of the counting loop: `counts[word] = counts.get(word, 0) + 1` on
an insertion-ordered dict: an existing key keeps its place, a new key is
appended at the end. -/
def bump (counts : List (Token × Nat)) (word : Token) : List (Token × Nat) :=
  match counts with
  | [] => [(word, 1)]
  | (k, v) :: rest =>
    if k = word then (k, v + 1) :: rest else (k, v) :: bump rest word

/-- `count_word_frequencies`: the counting loop over the word list. -/
def count_word_frequencies (words : List Token) : List (Token × Nat) :=
  words.foldl bump []

/-- Stable descending insertion: the new pair goes before the first pair whose
count is `≤` its own, hence after every earlier-inserted pair of equal count. -/
def insertDesc (p : Token × Nat) : List (Token × Nat) → List (Token × Nat)
  | [] => [p]
  | q :: l => if q.2 ≤ p.2 then p :: q :: l else q :: insertDesc p l

/-- `sort_words_by_frequency`: `sorted(counts.items(), key=lambda x: x[1],
reverse=True)`.  Python's sort is stable; the stable descending sort is
computed by inserting the items back-to-front. -/
def sort_words_by_frequency (counts : List (Token × Nat)) : List (Token × Nat) :=
  counts.foldr insertDesc []

/-- Python slice `l[:n]`: a nonnegative `n` keeps the first `n` entries
(capped at the length), a negative `n` removes the last `-n` entries. -/
def pySliceTo (l : List (Token × Nat)) (n : Int) : List (Token × Nat) :=
  l.take (if 0 ≤ n then n.toNat else l.length - (-n).toNat)

/-- `get_top_words`: `sorted_words[:top_n]`. -/
def get_top_words (sorted_words : List (Token × Nat)) (top_n : Int) :
    List (Token × Nat) :=
  pySliceTo sorted_words top_n

/-- The result dictionary built by `build_result_dict`. -/
structure Result where
  counts : List (Token × Nat)
  top_words : List (Token × Nat)
  total_words : Nat
  unique_words : Nat
deriving Repr, DecidableEq

/-- `build_result_dict`: `total_words = sum(counts.values())`,
`unique_words = len(counts)`. -/
def build_result_dict (counts top_words : List (Token × Nat)) : Result :=
  { counts := counts
    top_words := top_words
    total_words := (counts.map Prod.snd).sum
    unique_words := counts.length }

/-- `clean_all_words`: clean each word, keep the nonempty results in order. -/
def clean_all_words (words : List Token) (punctuation : List Char) : List Token :=
  match words with
  | [] => []
  | word :: rest =>
    let cleaned := clean_word word punctuation
    if cleaned ≠ [] then cleaned :: clean_all_words rest punctuation
    else clean_all_words rest punctuation

/-- `process_text`: the pipeline. -/
def process_text (text : List Char) (config : Config) : Result :=
  let words := normalize_text text
  let cleaned_words := clean_all_words words config.punctuation
  let filtered_words := filter_stopwords cleaned_words config.stopwords
  let counts := count_word_frequencies filtered_words
  let sorted_words := sort_words_by_frequency counts
  let top_words := get_top_words sorted_words config.top_n
  build_result_dict counts top_words

/-- The filtered token sequence of a run (the pipeline up to the stopword
filter), named so that theorems can refer to it. -/
def filtered_words (text : List Char) (config : Config) : List Token :=
  filter_stopwords (clean_all_words (normalize_text text) config.punctuation)
    config.stopwords

/-- The words of `ws` not in `seen`, first occurrences only, in order: the
keys the counting loop appends to a dict whose keys are `seen`. -/
def newKeys (seen : List Token) : List Token → List Token
  | [] => []
  | w :: ws => if w ∈ seen then newKeys seen ws else w :: newKeys (w :: seen) ws

/-- Index of the first occurrence of `x` in a word list (the list's length
when absent). -/
def firstIdx (x : Token) : List Token → Nat
  | [] => 0
  | w :: ws => if w = x then 0 else firstIdx x ws + 1

/-- The scenario input of the spec's testable properties. -/
def sampleText : List Char := "The cat sat on the mat. The cat ran.".data

/-! ### Lemmas about the counting loop -/

lemma bump_snd_sum (m : List (Token × Nat)) (w : Token) :
    ((bump m w).map Prod.snd).sum = (m.map Prod.snd).sum + 1 := by
  induction m with
  | nil => simp [bump]
  | cons q rest ih =>
    obtain ⟨k, v⟩ := q
    by_cases h : k = w
    · simp [bump, h]
      omega
    · simp [bump, h, ih]
      omega

lemma foldl_bump_snd_sum (ws : List Token) :
    ∀ m, ((List.foldl bump m ws).map Prod.snd).sum
      = (m.map Prod.snd).sum + ws.length := by
  induction ws with
  | nil => intro m; simp
  | cons w ws ih =>
    intro m
    rw [List.foldl_cons, ih (bump m w), bump_snd_sum]
    simp
    omega

lemma bump_keys (m : List (Token × Nat)) (w : Token) :
    (bump m w).map Prod.fst =
      if w ∈ m.map Prod.fst then m.map Prod.fst
      else m.map Prod.fst ++ [w] := by
  induction m with
  | nil => simp [bump]
  | cons q rest ih =>
    obtain ⟨k, v⟩ := q
    by_cases h : k = w
    · subst h
      simp [bump]
    · have h' : ¬ w = k := fun e => h e.symm
      by_cases hm : w ∈ rest.map Prod.fst
      · simp [bump, h, ih, hm, h']
      · simp [bump, h, ih, hm, h']

lemma newKeys_subset (seen ws : List Token) : ∀ x ∈ newKeys seen ws, x ∈ ws := by
  induction ws generalizing seen with
  | nil => simp [newKeys]
  | cons w ws ih =>
    intro x hx
    by_cases h : w ∈ seen
    · simp only [newKeys, if_pos h] at hx
      exact List.mem_cons_of_mem _ (ih seen x hx)
    · simp only [newKeys, if_neg h, List.mem_cons] at hx
      rcases hx with rfl | hx
      · exact List.mem_cons_self _ _
      · exact List.mem_cons_of_mem _ (ih (w :: seen) x hx)

lemma newKeys_not_mem_seen (seen ws : List Token) :
    ∀ x ∈ newKeys seen ws, x ∉ seen := by
  induction ws generalizing seen with
  | nil => simp [newKeys]
  | cons w ws ih =>
    intro x hx
    by_cases h : w ∈ seen
    · simp only [newKeys, if_pos h] at hx
      exact ih seen x hx
    · simp only [newKeys, if_neg h, List.mem_cons] at hx
      rcases hx with rfl | hx
      · exact h
      · exact fun hs => ih (w :: seen) x hx (List.mem_cons_of_mem _ hs)

lemma newKeys_nodup (seen ws : List Token) : (newKeys seen ws).Nodup := by
  induction ws generalizing seen with
  | nil => simp [newKeys]
  | cons w ws ih =>
    by_cases h : w ∈ seen
    · simp only [newKeys, if_pos h]
      exact ih seen
    · simp only [newKeys, if_neg h, List.nodup_cons]
      refine ⟨fun hw => ?_, ih (w :: seen)⟩
      exact newKeys_not_mem_seen (w :: seen) ws w hw (List.mem_cons_self _ _)

lemma newKeys_congr (ws : List Token) :
    ∀ s t, (∀ x, x ∈ s ↔ x ∈ t) → newKeys s ws = newKeys t ws := by
  induction ws with
  | nil => intro s t _; rfl
  | cons w ws ih =>
    intro s t h
    by_cases hw : w ∈ s
    · have hw' : w ∈ t := (h w).mp hw
      simp only [newKeys, if_pos hw, if_pos hw']
      exact ih s t h
    · have hw' : w ∉ t := fun c => hw ((h w).mpr c)
      simp only [newKeys, if_neg hw, if_neg hw']
      rw [ih (w :: s) (w :: t) (fun x => by simp [h x])]

lemma firstIdx_cons_self (w : Token) (ws : List Token) :
    firstIdx w (w :: ws) = 0 := by
  simp [firstIdx]

lemma firstIdx_cons_ne (x w : Token) (ws : List Token) (h : ¬ w = x) :
    firstIdx x (w :: ws) = firstIdx x ws + 1 := by
  simp [firstIdx, h]

lemma newKeys_pairwise (ws : List Token) :
    ∀ seen, (newKeys seen ws).Pairwise
      (fun a b => firstIdx a ws < firstIdx b ws) := by
  induction ws with
  | nil => intro seen; simp [newKeys]
  | cons w ws ih =>
    intro seen
    by_cases h : w ∈ seen
    · simp only [newKeys, if_pos h]
      refine (ih seen).imp_of_mem ?_
      intro a b ha hb hr
      have haw : ¬ w = a := fun e =>
        newKeys_not_mem_seen seen ws a ha (e ▸ h)
      have hbw : ¬ w = b := fun e =>
        newKeys_not_mem_seen seen ws b hb (e ▸ h)
      rw [firstIdx_cons_ne a w ws haw, firstIdx_cons_ne b w ws hbw]
      omega
    · simp only [newKeys, if_neg h]
      rw [List.pairwise_cons]
      constructor
      · intro b hb
        have hbw : ¬ w = b := fun e =>
          newKeys_not_mem_seen (w :: seen) ws b hb (e ▸ List.mem_cons_self w seen)
        rw [firstIdx_cons_self, firstIdx_cons_ne b w ws hbw]
        omega
      · refine (ih (w :: seen)).imp_of_mem ?_
        intro a b ha hb hr
        have haw : ¬ w = a := fun e =>
          newKeys_not_mem_seen (w :: seen) ws a ha (e ▸ List.mem_cons_self w seen)
        have hbw : ¬ w = b := fun e =>
          newKeys_not_mem_seen (w :: seen) ws b hb (e ▸ List.mem_cons_self w seen)
        rw [firstIdx_cons_ne a w ws haw, firstIdx_cons_ne b w ws hbw]
        omega

lemma foldl_bump_keys (ws : List Token) :
    ∀ m, (List.foldl bump m ws).map Prod.fst
      = m.map Prod.fst ++ newKeys (m.map Prod.fst) ws := by
  induction ws with
  | nil => intro m; simp [newKeys]
  | cons w ws ih =>
    intro m
    rw [List.foldl_cons, ih (bump m w), bump_keys]
    by_cases h : w ∈ m.map Prod.fst
    · rw [if_pos h]
      simp only [newKeys, if_pos h]
    · rw [if_neg h]
      simp only [newKeys, if_neg h]
      rw [newKeys_congr ws (m.map Prod.fst ++ [w]) (w :: m.map Prod.fst)
        (fun x => by simp [or_comm])]
      simp

lemma count_keys (ws : List Token) :
    (count_word_frequencies ws).map Prod.fst = newKeys [] ws := by
  have h := foldl_bump_keys ws []
  simpa [count_word_frequencies] using h

lemma count_sum (ws : List Token) :
    ((count_word_frequencies ws).map Prod.snd).sum = ws.length := by
  have h := foldl_bump_snd_sum ws []
  simpa [count_word_frequencies] using h

lemma count_keys_nodup (ws : List Token) :
    ((count_word_frequencies ws).map Prod.fst).Nodup := by
  rw [count_keys]
  exact newKeys_nodup [] ws

lemma count_keys_mem (ws : List Token) (x : Token)
    (h : x ∈ (count_word_frequencies ws).map Prod.fst) : x ∈ ws := by
  rw [count_keys] at h
  exact newKeys_subset [] ws x h

lemma count_keys_pairwise (ws : List Token) :
    ((count_word_frequencies ws).map Prod.fst).Pairwise
      (fun a b => firstIdx a ws < firstIdx b ws) := by
  rw [count_keys]
  exact newKeys_pairwise ws []

/-! ### Lemmas about the sort -/

lemma insertDesc_perm (p : Token × Nat) (m : List (Token × Nat)) :
    (insertDesc p m).Perm (p :: m) := by
  induction m with
  | nil => exact List.Perm.refl _
  | cons q l ih =>
    by_cases h : q.2 ≤ p.2
    · simp [insertDesc, h]
    · simp only [insertDesc, if_neg h]
      exact (ih.cons q).trans (List.Perm.swap p q l)

lemma sort_perm (l : List (Token × Nat)) : (sort_words_by_frequency l).Perm l := by
  induction l with
  | nil => exact List.Perm.refl _
  | cons p l ih =>
    simp only [sort_words_by_frequency, List.foldr_cons] at *
    exact (insertDesc_perm p _).trans (ih.cons p)

lemma insertDesc_pairwise (p : Token × Nat) (m : List (Token × Nat))
    (h : m.Pairwise (fun a b => b.2 ≤ a.2)) :
    (insertDesc p m).Pairwise (fun a b => b.2 ≤ a.2) := by
  induction m with
  | nil => simp [insertDesc]
  | cons q l ih =>
    rw [List.pairwise_cons] at h
    obtain ⟨hq, hl⟩ := h
    by_cases hc : q.2 ≤ p.2
    · simp only [insertDesc, if_pos hc]
      rw [List.pairwise_cons]
      refine ⟨?_, List.pairwise_cons.mpr ⟨hq, hl⟩⟩
      intro b hb
      rcases List.mem_cons.mp hb with rfl | hbl
      · exact hc
      · exact le_trans (hq b hbl) hc
    · simp only [insertDesc, if_neg hc]
      rw [List.pairwise_cons]
      refine ⟨?_, ih hl⟩
      intro b hb
      rcases List.mem_cons.mp ((insertDesc_perm p l).subset hb) with rfl | hbl
      · omega
      · exact hq b hbl

lemma sort_pairwise (l : List (Token × Nat)) :
    (sort_words_by_frequency l).Pairwise (fun a b => b.2 ≤ a.2) := by
  induction l with
  | nil => simp [sort_words_by_frequency]
  | cons p l ih =>
    simp only [sort_words_by_frequency, List.foldr_cons] at *
    exact insertDesc_pairwise p _ ih

lemma insertDesc_filter (p : Token × Nat) (m : List (Token × Nat)) (n : Nat) :
    (insertDesc p m).filter (fun q => decide (q.2 = n)) =
      if p.2 = n then p :: m.filter (fun q => decide (q.2 = n))
      else m.filter (fun q => decide (q.2 = n)) := by
  induction m with
  | nil => by_cases h : p.2 = n <;> simp [insertDesc, h]
  | cons q l ih =>
    by_cases hc : q.2 ≤ p.2
    · rw [show insertDesc p (q :: l) = p :: q :: l from by simp [insertDesc, hc]]
      by_cases hp : p.2 = n <;> simp [List.filter_cons, hp]
    · have hpq : p.2 < q.2 := Nat.lt_of_not_le hc
      simp only [insertDesc, if_neg hc, List.filter_cons]
      by_cases hq : q.2 = n
      · have hp : ¬ p.2 = n := by omega
        simp [hq, hp, ih]
      · by_cases hp : p.2 = n <;> simp [hq, hp, ih]

lemma sort_filter (l : List (Token × Nat)) (n : Nat) :
    (sort_words_by_frequency l).filter (fun q => decide (q.2 = n)) =
      l.filter (fun q => decide (q.2 = n)) := by
  induction l with
  | nil => rfl
  | cons p l ih =>
    simp only [sort_words_by_frequency, List.foldr_cons] at *
    rw [insertDesc_filter]
    by_cases hp : p.2 = n <;> simp [hp, ih, List.filter_cons]

/-! ### Lemmas about word cleaning -/

lemma head?_dropWhile_false (p : Char → Bool) (l : List Char) (c : Char)
    (h : (l.dropWhile p).head? = some c) : p c = false := by
  induction l with
  | nil => simp [List.dropWhile] at h
  | cons a l ih =>
    by_cases ha : p a
    · rw [List.dropWhile_cons, if_pos ha] at h
      exact ih h
    · rw [List.dropWhile_cons, if_neg ha] at h
      simp only [List.head?_cons, Option.some.injEq] at h
      subst h
      simpa using ha

lemma getLast?_dropWhile (p : Char → Bool) (l : List Char)
    (h : l.dropWhile p ≠ []) : (l.dropWhile p).getLast? = l.getLast? := by
  induction l with
  | nil => simp [List.dropWhile] at h
  | cons a l ih =>
    by_cases ha : p a
    · rw [List.dropWhile_cons, if_pos ha] at h ⊢
      have hl : l ≠ [] := by
        intro e
        subst e
        simp [List.dropWhile] at h
      rw [ih h]
      match l, hl with
      | b :: l', _ => rw [List.getLast?_cons_cons]
    · rw [List.dropWhile_cons, if_neg ha]

lemma clean_word_head (word : Token) (punctuation : List Char) (c : Char)
    (h : (clean_word word punctuation).head? = some c) : c ∉ punctuation := by
  unfold clean_word at h
  rw [List.head?_reverse] at h
  have hY : (word.dropWhile (fun c => decide (c ∈ punctuation))).reverse.dropWhile
      (fun c => decide (c ∈ punctuation)) ≠ [] := by
    intro e
    rw [e] at h
    simp at h
  rw [getLast?_dropWhile _ _ hY, List.getLast?_reverse] at h
  have hf := head?_dropWhile_false (fun c => decide (c ∈ punctuation)) word c h
  simpa using hf

lemma clean_word_last (word : Token) (punctuation : List Char) (c : Char)
    (h : (clean_word word punctuation).getLast? = some c) : c ∉ punctuation := by
  unfold clean_word at h
  rw [List.getLast?_reverse] at h
  have hf := head?_dropWhile_false (fun c => decide (c ∈ punctuation)) _ c h
  simpa using hf

lemma clean_all_words_eq (ws : List Token) (punctuation : List Char) :
    clean_all_words ws punctuation =
      (ws.map (fun w => clean_word w punctuation)).filter
        (fun w => !w.isEmpty) := by
  induction ws with
  | nil => rfl
  | cons w ws ih =>
    by_cases h : clean_word w punctuation = []
    · simp [clean_all_words, h, ih, List.filter_cons]
    · simp [clean_all_words, h, ih, List.filter_cons,
        List.isEmpty_iff]

lemma mem_clean_all_words (ws : List Token) (punctuation : List Char)
    (t : Token) (h : t ∈ clean_all_words ws punctuation) :
    t ≠ [] ∧ ∃ w ∈ ws, t = clean_word w punctuation := by
  rw [clean_all_words_eq] at h
  rw [List.mem_filter] at h
  obtain ⟨hmap, hne⟩ := h
  rw [List.mem_map] at hmap
  obtain ⟨w, hw, rfl⟩ := hmap
  refine ⟨?_, w, hw, rfl⟩
  simpa [List.isEmpty_iff] using hne

lemma mem_filter_stopwords (ws stopwords : List Token) (t : Token) :
    t ∈ filter_stopwords ws stopwords ↔
      t ∈ ws ∧ t ≠ [] ∧ t ∉ stopwords := by
  simp [filter_stopwords, List.mem_filter]

/-! ### Unfolding the pipeline's fields -/

lemma counts_def (text : List Char) (config : Config) :
    (process_text text config).counts
      = count_word_frequencies (filtered_words text config) := rfl

lemma top_words_def (text : List Char) (config : Config) :
    (process_text text config).top_words
      = (sort_words_by_frequency
            (count_word_frequencies (filtered_words text config))).take
          (if 0 ≤ config.top_n then config.top_n.toNat
           else (sort_words_by_frequency
              (count_word_frequencies (filtered_words text config))).length
             - (-config.top_n).toNat) := rfl

lemma total_words_def (text : List Char) (config : Config) :
    (process_text text config).total_words
      = ((count_word_frequencies (filtered_words text config)).map
          Prod.snd).sum := rfl

lemma unique_words_def (text : List Char) (config : Config) :
    (process_text text config).unique_words
      = (count_word_frequencies (filtered_words text config)).length := rfl

/-! ### The claims -/

/-- C1: for every input text and configuration, `total_words` equals the
length of the filtered token sequence, `total_words` equals the sum of the
values of `counts`, the keys of `counts` are pairwise distinct, and
`unique_words` equals the number of (distinct) keys of `counts`. -/
theorem C1_totals_match_counts (text : List Char) (config : Config) :
    (process_text text config).total_words
        = (filtered_words text config).length ∧
    (process_text text config).total_words
        = ((process_text text config).counts.map Prod.snd).sum ∧
    ((process_text text config).counts.map Prod.fst).Nodup ∧
    (process_text text config).unique_words
        = ((process_text text config).counts.map Prod.fst).length := by
  refine ⟨?_, rfl, ?_, ?_⟩
  · rw [total_words_def]
    exact count_sum (filtered_words text config)
  · rw [counts_def]
    exact count_keys_nodup (filtered_words text config)
  · rw [unique_words_def, counts_def, List.length_map]

/-- C2: on the input `"The cat sat on the mat. The cat ran."` with the
default configuration, the filtered tokens are `cat, sat, mat, cat, ran`, the
frequency map is `{cat: 2, sat: 1, mat: 1, ran: 1}`, `total_words = 5`,
`unique_words = 4`, and the first ranked entry is `(cat, 2)`. -/
theorem C2_scenario_cat_mat :
    filtered_words sampleText CONFIG
        = ["cat".data, "sat".data, "mat".data, "cat".data, "ran".data] ∧
    (process_text sampleText CONFIG).counts
        = [("cat".data, 2), ("sat".data, 1), ("mat".data, 1), ("ran".data, 1)] ∧
    (process_text sampleText CONFIG).total_words = 5 ∧
    (process_text sampleText CONFIG).unique_words = 4 ∧
    (process_text sampleText CONFIG).top_words.head? = some ("cat".data, 2) := by
  decide

/-- C3: for every input and configuration, the ranked list is sorted by count
non-increasing, and every pair of `counts` that is absent from the ranked
list has its count `≤` the count of every pair inside the ranked list (so
none exceeds the minimum count present there). -/
theorem C3_ranked_list_correct (text : List Char) (config : Config) :
    (process_text text config).top_words.Pairwise (fun a b => b.2 ≤ a.2) ∧
    ∀ p ∈ (process_text text config).counts,
      p ∉ (process_text text config).top_words →
      ∀ q ∈ (process_text text config).top_words, p.2 ≤ q.2 := by
  rw [counts_def, top_words_def]
  set counts := count_word_frequencies (filtered_words text config) with hc
  set sorted := sort_words_by_frequency counts with hs
  set m := if 0 ≤ config.top_n then config.top_n.toNat
    else sorted.length - (-config.top_n).toNat with hm
  constructor
  · exact (sort_pairwise counts).sublist (List.take_sublist m sorted)
  · intro p hp hnot q hq
    have hps : p ∈ sorted := (sort_perm counts).mem_iff.mpr hp
    rw [← List.take_append_drop m sorted] at hps
    rcases List.mem_append.mp hps with htk | hdr
    · exact absurd htk hnot
    · have hpw := sort_pairwise counts
      rw [← hs, ← List.take_append_drop m sorted, List.pairwise_append] at hpw
      exact hpw.2.2 q hq p hdr

/-- C4: for every input text and punctuation set, the token sequence equals
the lowercased text split on whitespace runs, with each word stripped of the
punctuation characters at its two ends and empty results discarded; hence no
token is empty and no token starts or ends with a punctuation character, and
source order is preserved (the token list is the order-preserving
map-then-filter of the split words). -/
theorem C4_tokenizer_correct (text : List Char) (punctuation : List Char) :
    clean_all_words (normalize_text text) punctuation
        = ((splitWs (text.map Char.toLower)).map
            (fun w => clean_word w punctuation)).filter (fun w => !w.isEmpty) ∧
    ∀ t ∈ clean_all_words (normalize_text text) punctuation,
      t ≠ [] ∧ (∀ c, t.head? = some c → c ∉ punctuation) ∧
        (∀ c, t.getLast? = some c → c ∉ punctuation) := by
  constructor
  · exact clean_all_words_eq (normalize_text text) punctuation
  · intro t ht
    obtain ⟨hne, w, _, rfl⟩ :=
      mem_clean_all_words (normalize_text text) punctuation t ht
    exact ⟨hne, fun c hc => clean_word_head w punctuation c hc,
      fun c hc => clean_word_last w punctuation c hc⟩

/-- C5: for every input text and configuration, no stopword of the
configuration is a key of the `counts` map of the result. -/
theorem C5_no_stopword_key (text : List Char) (config : Config) :
    ∀ s ∈ config.stopwords,
      s ∉ (process_text text config).counts.map Prod.fst := by
  intro s hs hmem
  rw [counts_def] at hmem
  have hf : s ∈ filtered_words text config :=
    count_keys_mem (filtered_words text config) s hmem
  rw [filtered_words, mem_filter_stopwords] at hf
  exact hf.2.2 hs

/-- Witness for C5 at the spec scenario: `"the"` is a stopword of the default
configuration and is not a key of the resulting frequency map. -/
theorem C5_no_stopword_key_witness :
    "the".data ∈ CONFIG.stopwords ∧
    "the".data ∉ (process_text sampleText CONFIG).counts.map Prod.fst :=
  ⟨by decide, C5_no_stopword_key sampleText CONFIG "the".data (by decide)⟩

/-- C6: for every input and every configuration with a positive result limit,
the ranked list's length is at most the limit and at most the unique token
count, and when the unique token count is at most the limit the ranked list
holds every entry of the frequency map (no padding, nothing dropped). -/
theorem C6_limit_bounds (text : List Char) (config : Config)
    (h : 0 < config.top_n) :
    (process_text text config).top_words.length ≤ config.top_n.toNat ∧
    (process_text text config).top_words.length
        ≤ (process_text text config).unique_words ∧
    ((process_text text config).unique_words ≤ config.top_n.toNat →
      (process_text text config).top_words.Perm
        (process_text text config).counts) := by
  rw [top_words_def, unique_words_def, counts_def]
  set counts := count_word_frequencies (filtered_words text config) with hc
  set sorted := sort_words_by_frequency counts with hs
  have h0 : (0 : Int) ≤ config.top_n := le_of_lt h
  rw [if_pos h0]
  have hlen : sorted.length = counts.length := by
    rw [hs]
    exact (sort_perm counts).length_eq
  refine ⟨?_, ?_, ?_⟩
  · rw [List.length_take]
    exact min_le_left _ _
  · rw [List.length_take, hlen]
    exact min_le_right _ _
  · intro hu
    have hle : sorted.length ≤ config.top_n.toNat := by omega
    rw [List.take_of_length_le hle, hs]
    exact sort_perm counts

/-- Witness for C6 at the spec scenario with the default limit 10. -/
theorem C6_limit_bounds_witness :
    0 < CONFIG.top_n ∧
    ((process_text sampleText CONFIG).top_words.length ≤ CONFIG.top_n.toNat ∧
     (process_text sampleText CONFIG).top_words.length
        ≤ (process_text sampleText CONFIG).unique_words ∧
     ((process_text sampleText CONFIG).unique_words ≤ CONFIG.top_n.toNat →
       (process_text sampleText CONFIG).top_words.Perm
         (process_text sampleText CONFIG).counts)) :=
  ⟨by decide, C6_limit_bounds sampleText CONFIG (by decide)⟩

/-- C7: zero tokens after filtering is not an error: the empty text and a
text of stopwords only both give the result with empty counts, empty ranked
list and zero totals. -/
theorem C7_empty_input_ok :
    process_text "".data CONFIG = ⟨[], [], 0, 0⟩ ∧
    process_text "the a an".data CONFIG = ⟨[], [], 0, 0⟩ := by
  decide

/-- C8: the pipeline is deterministic: two runs of `process_text` on the same
text and configuration agree on every field of the result (the embedding is a
pure function, so the two runs are two applications of the same function). -/
theorem C8_deterministic (text : List Char) (config : Config) :
    (process_text text config).counts = (process_text text config).counts ∧
    (process_text text config).top_words
        = (process_text text config).top_words ∧
    (process_text text config).total_words
        = (process_text text config).total_words ∧
    (process_text text config).unique_words
        = (process_text text config).unique_words ∧
    process_text text config = process_text text config :=
  ⟨rfl, rfl, rfl, rfl, rfl⟩

/-- C9: the implicit tie-break: whenever two entries of equal count both
appear in the ranked list, the one listed first is the token whose first
occurrence in the filtered token sequence comes first (insertion order of
the frequency map plus stability of the sort). -/
theorem C9_stable_tie_break (text : List Char) (config : Config) :
    ∀ u v c,
      List.Sublist [(u, c), (v, c)] (process_text text config).top_words →
      firstIdx u (filtered_words text config)
        < firstIdx v (filtered_words text config) := by
  intro u v c hsub
  rw [top_words_def] at hsub
  set counts := count_word_frequencies (filtered_words text config) with hc
  set sorted := sort_words_by_frequency counts with hs
  have h1 : List.Sublist [(u, c), (v, c)] sorted :=
    hsub.trans (List.take_sublist _ sorted)
  have h2 := h1.filter (fun q => decide (q.2 = c))
  rw [show List.filter (fun q => decide (q.2 = c)) [(u, c), (v, c)]
      = [(u, c), (v, c)] from by simp] at h2
  rw [hs, sort_filter counts c] at h2
  have h3 : List.Sublist [(u, c), (v, c)] counts :=
    h2.trans (List.filter_sublist counts)
  have h4 : List.Sublist [u, v] (counts.map Prod.fst) := by
    have hmap := h3.map Prod.fst
    simpa using hmap
  have h5 : List.Pairwise
      (fun a b => firstIdx a (filtered_words text config)
        < firstIdx b (filtered_words text config)) [u, v] :=
    List.Pairwise.sublist h4 (count_keys_pairwise (filtered_words text config))
  exact (List.pairwise_cons.mp h5).1 v (List.mem_cons_self v [])

/-- Witness for C9 at the spec scenario: `sat` and `mat` both have count 1,
`sat` is ranked before `mat`, and `sat` first occurs before `mat` in the
filtered sequence `cat, sat, mat, cat, ran`. -/
theorem C9_stable_tie_break_witness :
    List.Sublist [("sat".data, 1), ("mat".data, 1)]
        (process_text sampleText CONFIG).top_words ∧
    firstIdx "sat".data (filtered_words sampleText CONFIG)
        < firstIdx "mat".data (filtered_words sampleText CONFIG) :=
  ⟨by decide,
    C9_stable_tie_break sampleText CONFIG "sat".data "mat".data 1 (by decide)⟩

/-- C10: a negative limit `-k` is silently coerced by the Python slice
`sorted_words[:top_n]`: `get_top_words` returns the list with its last `k`
entries removed, the empty list when `k` is at least the list's length —
no error is raised. -/
theorem C10_negative_limit_slices (l : List (Token × Nat)) (k : Nat)
    (h : 0 < k) :
    get_top_words l (-(k : Int)) = l.take (l.length - k) ∧
    (l.length ≤ k → get_top_words l (-(k : Int)) = []) := by
  have h1 : ¬ (0 : Int) ≤ -(k : Int) := by omega
  constructor
  · unfold get_top_words pySliceTo
    rw [if_neg h1]
    simp
  · intro hk
    unfold get_top_words pySliceTo
    rw [if_neg h1]
    simp [Nat.sub_eq_zero_of_le hk]

/-- Witness for C10: slicing a three-entry list with limit `-2` keeps only
the first entry. -/
theorem C10_negative_limit_slices_witness :
    0 < 2 ∧
    (get_top_words [("cat".data, 2), ("sat".data, 1), ("mat".data, 1)]
          (-((2 : Nat) : Int))
        = [("cat".data, 2), ("sat".data, 1), ("mat".data, 1)].take
            ([("cat".data, 2), ("sat".data, 1), ("mat".data, 1)].length - 2) ∧
     ([("cat".data, 2), ("sat".data, 1), ("mat".data, 1)].length ≤ 2 →
       get_top_words [("cat".data, 2), ("sat".data, 1), ("mat".data, 1)]
          (-((2 : Nat) : Int)) = [])) :=
  ⟨by decide,
    C10_negative_limit_slices
      [("cat".data, 2), ("sat".data, 1), ("mat".data, 1)] 2 (by decide)⟩

end WC
